import Mathlib

/-!
Verification of the LogPSplinePSD core: knot selection, basis and penalty
construction, weight initialization, and the `LogPSplines` / `Periodogram`
data model, shallowly embedded from `src/log_psplines/`.

Machine floats are modelled by real numbers; numpy arrays by lists of reals
(or Mathlib matrices where linear-algebra facts are needed); Python
exceptions by `Except String`.
-/

set_option maxHeartbeats 1000000

noncomputable section

namespace LogPSplinePSD

/-- Embeds the `Periodogram` dataclass of `datasets.py`: a pair of
frequency/power arrays and a `filtered` flag. -/
structure Periodogram where
  freqs : List ℝ
  power : List ℝ
  filtered : Bool

/-- Embeds `Periodogram.n`: number of frequency samples (`len(self.freqs)`). -/
def Periodogram.n (p : Periodogram) : ℕ := p.freqs.length

/-- Numpy boolean-mask indexing `xs[mask]`: keep the entries of `xs` whose
positionally corresponding mask entry is true. -/
def maskFilter (mask : List Bool) (xs : List ℝ) : List ℝ :=
  ((mask.zip xs).filter fun q => q.1).map fun q => q.2

/-- Embeds `Periodogram.highpass` (`datasets.py` lines 49-52): build the
boolean mask `freqs > min_freq` and return a new `Periodogram` from the
masked copies of both arrays, with `filtered=True`. -/
def Periodogram.highpass (p : Periodogram) (min_freq : ℝ) : Periodogram :=
  let mask := p.freqs.map fun f => decide (min_freq < f)
  { freqs := maskFilter mask p.freqs
    power := maskFilter mask p.power
    filtered := true }

/-- Embeds `np.linspace(a, b, num)` over the reals: `num` evenly spaced points from
`a` to `b` inclusive. For `num = 1` numpy returns `[a]`, which the formula
below also yields since division by zero is zero in `ℝ`. -/
def linspace (a b : ℝ) (num : ℕ) : List ℝ :=
  (List.range num).map fun i : ℕ => a + (b - a) * (i : ℝ) / ((num : ℝ) - 1)

/-- Python slice `xs[1:-1]`: drop the first and last entries. -/
def interior (xs : List ℝ) : List ℝ := (xs.drop 1).dropLast

/-- Embeds `np.logspace(s, e, num)`: `10 ** np.linspace(s, e, num)` elementwise. -/
def logspace (s e : ℝ) (num : ℕ) : List ℝ :=
  (linspace s e num).map fun x => (10 : ℝ) ^ x

/-- Embeds `np.cumsum`: running partial sums. -/
def cumsum (xs : List ℝ) : List ℝ := (xs.scanl (· + ·) 0).drop 1

/-- Helper for `npInterp`: walk the `(xp, fp)` pairs. Queries left of the
first sample return the first `fp` value, queries right of the last sample
return the last `fp` value, and queries inside a segment are linearly
interpolated, matching `np.interp` on increasing `xp`. -/
def interpSegs : ℝ → List (ℝ × ℝ) → ℝ
  | _, [] => 0
  | _, [(_, f1)] => f1
  | x, (x1, f1) :: (x2, f2) :: rest =>
    if x < x1 then f1
    else if x ≤ x2 then f1 + (f2 - f1) * (x - x1) / (x2 - x1)
    else interpSegs x ((x2, f2) :: rest)

/-- Embeds `np.interp(x, xp, fp)`: piecewise-linear interpolation with clamping at
both ends. -/
def npInterp (x : ℝ) (xp fp : List ℝ) : ℝ := interpSegs x (xp.zip fp)

/-- Fraction clamping in `init_knots`: `max(0.0, min(frac, 1.0))`. -/
def clamp01 (x : ℝ) : ℝ := max 0 (min x 1)

/-- Embeds `int(frac * (n_knots - 2)) if frac > 0 else 0`: the per-group knot
count (Python `int()` truncates, which is the floor for the non-negative
products that arise here). -/
def groupCount (n_knots : ℕ) (frac : ℝ) : ℕ :=
  if 0 < frac then ⌊frac * ((n_knots : ℝ) - 2)⌋₊ else 0

/-- Uniformly spaced interior knots:
`np.linspace(min_freq, max_freq, k + 2)[1:-1] if k > 0 else []`. -/
def uniformKnots (mn mx : ℝ) (k : ℕ) : List ℝ :=
  if 0 < k then interior (linspace mn mx (k + 2)) else []

/-- Log-spaced interior knots:
`np.logspace(log10(min_freq), log10(max_freq), k + 2)[1:-1] if k > 0 else []`. -/
def logKnots (mn mx : ℝ) (k : ℕ) : List ℝ :=
  if 0 < k then
    interior (logspace (Real.logb 10 mn) (Real.logb 10 mx) (k + 2))
  else []

/-- Density-based interior knots: normalize the power to a density, take its
cumulative sum as a CDF, and place knots at `np.interp` of the interior
quantiles `np.linspace(0, 1, k + 2)[1:-1]` through the inverse CDF. -/
def densityKnots (p : Periodogram) (k : ℕ) : List ℝ :=
  if 0 < k then
    (interior (linspace 0 1 (k + 2))).map fun q =>
      npInterp q (cumsum (p.power.map fun w => w / p.power.sum)) p.freqs
  else []

/-- The concatenated (pre-sort, pre-normalization) knot array of
`init_knots`: `[min_freq] + uniform + log + density + [max_freq]`. -/
def rawKnots (p : Periodogram) (n_knots : ℕ)
    (frac_uniform frac_log : ℝ) : List ℝ :=
  let mn := p.freqs.headD 0
  let mx := p.freqs.getLastD 0
  let n_u := groupCount n_knots (clamp01 frac_uniform)
  let n_l := groupCount n_knots (clamp01 frac_log)
  let n_d := (n_knots - 2) - (n_u + n_l)
  [mn] ++ uniformKnots mn mx n_u ++ logKnots mn mx n_l
    ++ densityKnots p n_d ++ [mx]

/-- Embeds `init_knots` (`initialisation.py` lines 99-182): mixed
uniform/log/density knot placement. Raises for `n_knots < 2`; returns the
raw `[min_freq, max_freq]` for `n_knots == 2`; otherwise clamps the two
fractions to `[0,1]` independently, truncates the per-group counts, builds
the three interior-knot groups, concatenates them with the two boundary
frequencies, sorts ascending, and rescales so min maps to 0 and max to 1. -/
def init_knots (periodogram : Periodogram) (n_knots : ℕ)
    (frac_uniform frac_log : ℝ) : Except String (List ℝ) :=
  if n_knots < 2 then
    .error "At least two knots are required (min and max frequencies)."
  else
    let min_freq := periodogram.freqs.headD 0
    let max_freq := periodogram.freqs.getLastD 0
    if n_knots = 2 then .ok [min_freq, max_freq]
    else
      let sorted :=
        (rawKnots periodogram n_knots frac_uniform frac_log).insertionSort (· ≤ ·)
      .ok (sorted.map fun x => (x - min_freq) / (max_freq - min_freq))

/-- The padded knot sequence of `init_basis_and_penalty`
(`initialisation.py` lines 79-81): `degree` repeated 0s, then the knots,
then `degree` repeated 1s. -/
def knotsWithBoundary (knots : List ℝ) (degree : ℕ) : List ℝ :=
  List.replicate degree 0 ++ knots ++ List.replicate degree 1

/-- Cox-de Boor recursion for the B-spline basis functions over the padded
knot vector `t`, with the standard 0/0 = 0 convention on collapsed knot
windows. This models the evaluation performed by the external
`BSplineBasis(...).to_grid(...)` collaborator (scikit-fda): a clamped
B-spline basis is defined by exactly this recursion. -/
def bspline (t : List ℝ) : ℕ → ℕ → ℝ → ℝ
  | j, 0, x => if t.getD j 0 ≤ x ∧ x < t.getD (j + 1) 0 then 1 else 0
  | j, p + 1, x =>
    (if t.getD (j + p + 1) 0 = t.getD j 0 then 0
     else (x - t.getD j 0) / (t.getD (j + p + 1) 0 - t.getD j 0)
        * bspline t j p x)
    + (if t.getD (j + p + 2) 0 = t.getD (j + 1) 0 then 0
       else (t.getD (j + p + 2) 0 - x)
           / (t.getD (j + p + 2) 0 - t.getD (j + 1) 0)
        * bspline t (j + 1) p x)

/-- Per-column normalization factor (`initialisation.py` lines 83-85):
`(knots_with_boundary[degree+1:][j] - knots_with_boundary[:-degree-1][j]) / (degree + 1)`. -/
def normFactor (knots : List ℝ) (degree : ℕ) (j : ℕ) : ℝ :=
  ((knotsWithBoundary knots degree).getD (j + degree + 1) 0
      - (knotsWithBoundary knots degree).getD j 0) / ((degree : ℝ) + 1)

/-- Embeds the basis-matrix part of `init_basis_and_penalty`
(`initialisation.py` lines 71-87): evaluate the `n_knots + degree - 1`
B-spline basis functions on a uniform grid of `n_grid_points` points in
`[0, 1]` and divide each column by its normalization factor. In the source
a zero factor is replaced by `np.inf`, so the corresponding entries become
zero after the division; the embedding maps them directly to zero. -/
def init_basis (knots : List ℝ) (degree n_grid_points : ℕ) :
    List (List ℝ) :=
  (linspace 0 1 n_grid_points).map fun x =>
    (List.range (knots.length + degree - 1)).map fun j =>
      if normFactor knots degree j = 0 then 0
      else bspline (knotsWithBoundary knots degree) j degree x
          / normFactor knots degree j

/-- Modelled from the spec: the external collaborator call
`L2Regularization(LinearDifferentialOperator(diffMatrixOrder)).penalty_matrix(basis)`
(scikit-fda; `bayesian_model.py` is also absent from the sources) returns
the Gram matrix of the `diffMatrixOrder`-th derivatives of the basis
functions. It is modelled as the Gram matrix of an arbitrary finite
discretization `v` of those derivative functions:
`P[i][j] = Σ_k (v i k) * (v j k)`. -/
def penaltyGram {nb m : ℕ} (v : Fin nb → Fin m → ℝ) :
    Matrix (Fin nb) (Fin nb) ℝ :=
  Matrix.of fun i j => ∑ k, v i k * v j k

/-- All entries of a square matrix as a flat list. -/
def matrixEntries {nb : ℕ} (p : Matrix (Fin nb) (Fin nb) ℝ) : List ℝ :=
  ((List.finRange nb).map fun i =>
    (List.finRange nb).map fun j => p i j).flatten

/-- Embeds `np.max` over all entries of a square matrix (0 for the 0×0 matrix,
which numpy would instead reject). -/
def npMax {nb : ℕ} (p : Matrix (Fin nb) (Fin nb) ℝ) : ℝ :=
  (matrixEntries p).max?.getD 0

/-- Embeds the penalty post-processing of `init_basis_and_penalty`
(`initialisation.py` lines 94-95):
`p = p / np.max(p)` followed by `p = p + epsilon * np.eye(p.shape[1])`. -/
def stabilizedPenalty {nb : ℕ} (p : Matrix (Fin nb) (Fin nb) ℝ)
    (epsilon : ℝ) : Matrix (Fin nb) (Fin nb) ℝ :=
  Matrix.of fun i j => p i j / npMax p + (if i = j then epsilon else 0)

/-- The penalty matrix of `init_basis_and_penalty`: the modelled library
Gram matrix, rescaled by its maximum entry and stabilized on the
diagonal. -/
def init_penalty {nb m : ℕ} (v : Fin nb → Fin m → ℝ) (epsilon : ℝ) :
    Matrix (Fin nb) (Fin nb) ℝ :=
  stabilizedPenalty (penaltyGram v) epsilon

/-- Embeds the `LogPSplines` dataclass fields (`psplines.py` lines 12-23).
The `_log_parametric_model` attribute created lazily by the
`log_parametric_model` property is modelled as an `Option`-valued field
that starts out absent (`none`). -/
structure LogPSplines where
  degree : ℤ
  diffMatrixOrder : ℤ
  n : ℕ
  basis : List (List ℝ)
  penalty_matrix : List (List ℝ)
  knots : List ℝ
  weights : List ℝ
  parametric_model : Option (List ℝ)
  log_parametric_model_cache : Option (List ℝ)

/-- Embeds `LogPSplines.n_knots`: `len(self.knots)`. -/
def LogPSplines.n_knots (m : LogPSplines) : ℕ := m.knots.length

/-- Embeds `LogPSplines.n_basis`: `self.n_knots + self.degree - 1` (Python int
arithmetic, hence `ℤ`). -/
def LogPSplines.n_basis (m : LogPSplines) : ℤ :=
  (m.knots.length : ℤ) + m.degree - 1

/-- Embeds `LogPSplines.__post_init__` (`psplines.py` lines 25-33): the
four validation checks, in source order. -/
def postInitCheck (degree diffMatrixOrder : ℤ) (n_knots : ℕ) :
    Except String Unit :=
  if degree < diffMatrixOrder then
    .error "Degree must be larger than diffMatrixOrder."
  else if degree ∉ ([0, 1, 2, 3, 4, 5] : List ℤ) then
    .error "Degree must be between 0 and 5."
  else if diffMatrixOrder ∉ ([0, 1, 2] : List ℤ) then
    .error "diffMatrixOrder must be 0, 1, or 2."
  else if (n_knots : ℤ) < degree then
    .error "knot count is less than degree"
  else .ok ()

/-- Constructing a `LogPSplines` dataclass instance: Python assigns the
fields and immediately runs `__post_init__`, so an invalid configuration
raises before the object escapes. The constructor itself performs no knot
selection or basis/penalty computation — its numeric fields are passed in
by the caller. -/
def LogPSplines.make (degree diffMatrixOrder : ℤ) (n : ℕ)
    (basis penalty_matrix : List (List ℝ)) (knots : List ℝ)
    (weights : List ℝ) (parametric_model : Option (List ℝ)) :
    Except String LogPSplines := do
  let _ ← postInitCheck degree diffMatrixOrder knots.length
  .ok ⟨degree, diffMatrixOrder, n, basis, penalty_matrix, knots, weights,
    parametric_model, none⟩

/-- Embeds the `log_parametric_model` property (`psplines.py` lines 69-75)
as a state transition returning the property value together with the
possibly mutated object: if the cache attribute is absent, a `None`
`parametric_model` field is first overwritten with a ones vector of length
`n`, then its elementwise log is computed, cached, and returned. -/
def log_parametric_model (m : LogPSplines) : List ℝ × LogPSplines :=
  match m.log_parametric_model_cache with
  | some v => (v, m)
  | none =>
    let pm := match m.parametric_model with
      | none => List.replicate m.n 1
      | some a => a
    let v := pm.map Real.log
    (v, { m with parametric_model := some pm,
                 log_parametric_model_cache := some v })

/-- Optax Adam optimizer state: first and second moment estimates and the
step count. -/
structure AdamState where
  mu : List ℝ
  nu : List ℝ
  count : ℕ

/-- One `optax.adam` update (library defaults `b1 = 0.9`, `b2 = 0.999`,
`eps = 1e-8`): exponential moment updates with bias correction, then the
scaled step added to the weights. Modelled from the optimizer library's
documented algorithm (optax is an external collaborator). -/
def adamStep (lr : ℝ) (g w : List ℝ) (s : AdamState) :
    List ℝ × AdamState :=
  let b1 : ℝ := 0.9
  let b2 : ℝ := 0.999
  let eps : ℝ := 1e-8
  let mu := List.zipWith (fun m gi => b1 * m + (1 - b1) * gi) s.mu g
  let nu := List.zipWith (fun n gi => b2 * n + (1 - b2) * gi ^ 2) s.nu g
  let c := s.count + 1
  let muHat := mu.map fun m => m / (1 - b1 ^ c)
  let nuHat := nu.map fun n => n / (1 - b2 ^ c)
  let upd := List.zipWith (fun m n => -lr * m / (Real.sqrt n + eps)) muHat nuHat
  (List.zipWith (· + ·) w upd, ⟨mu, nu, c⟩)

/-- Embeds `init_weights` (`initialisation.py` lines 18-49): when no
initial vector is supplied, start from the zero vector of length
`n_basis`; initialize the optimizer state; then run a fixed number of Adam
steps (`num_steps`, source default 5000; learning rate `1e-2`) driven by
the gradient of the loss at the current weights. The loss gradient
(autodiff of `-whittle_lnlike(log_pdgrm, log_psplines(weights))`, whose
`whittle_lnlike` lives in `bayesian_model.py`, absent from the sources) is
the parameter `gradFn`; modelled from the spec, which requires only a
differentiable scalar loss from the external collaborator. -/
def init_weights (gradFn : List ℝ → List ℝ → List ℝ)
    (log_pdgrm : List ℝ) (log_psplines : LogPSplines)
    (iw : Option (List ℝ)) (num_steps : ℕ) : List ℝ :=
  let w0 := match iw with
    | none => List.replicate log_psplines.n_basis.toNat 0
    | some w => w
  let step := fun (st : List ℝ × AdamState) =>
    adamStep (1 / 100) (gradFn log_pdgrm st.1) st.1 st.2
  (step^[num_steps]
    (w0, ⟨List.replicate w0.length 0, List.replicate w0.length 0, 0⟩)).1

/-- A dynamically-typed Python value, needed to model the call
`init_knots(n_knots, periodogram, parametric_model, **knot_kwargs)` made
by `LogPSplines.from_periodogram` (`psplines.py` lines 48-50): its
positional arguments do not match the parameter order
`init_knots(periodogram, n_knots, frac_uniform=0.0, frac_log=0.8)`
declared in `initialisation.py`. -/
inductive PyVal where
  | int : ℤ → PyVal
  | pdgrm : Periodogram → PyVal
  | pyNone : PyVal
  | arr : List ℝ → PyVal
  | real : ℝ → PyVal

/-- Python `a < b`: numbers compare; a `Periodogram` (a plain dataclass
with no ordering methods) compared against an `int` raises `TypeError`. -/
def pyLt : PyVal → PyVal → Except String Bool
  | .int a, .int b => .ok (decide (a < b))
  | .real a, .real b => .ok (decide (a < b))
  | .int a, .real b => .ok (decide ((a : ℝ) < b))
  | .real a, .int b => .ok (decide (a < (b : ℝ)))
  | _, _ => .error "TypeError: unorderable types"

/-- Models `init_knots` entered with dynamically-typed arguments, bound
positionally to the parameters `(periodogram, n_knots, frac_uniform,
frac_log)`. The body's first statement evaluates `n_knots < 2`, which
raises `TypeError` unless the value bound to `n_knots` is a number; with
correctly-typed arguments the body is the typed `init_knots` above. -/
def init_knots_dyn (periodogram n_knots frac_uniform frac_log : PyVal) :
    Except String (List ℝ) := do
  let _ ← pyLt n_knots (.int 2)
  match periodogram, n_knots, frac_uniform, frac_log with
  | .pdgrm p, .int nk, .real fu, .real fl => init_knots p nk.toNat fu fl
  | _, _, _, _ => .error "TypeError: invalid argument types"

/-- Embeds `LogPSplines.from_periodogram` (`psplines.py` lines 38-67),
including its call `init_knots(n_knots, periodogram, parametric_model,
**knot_kwargs)` with `knot_kwargs = {}` — positionally, the `int` lands on
the `periodogram` parameter, the `Periodogram` on `n_knots`, and
`parametric_model` on `frac_uniform`, while `frac_log` keeps its default
`0.8`. The external penalty collaborator and loss gradient are parameters
(`penaltyFn`, `gradFn`). -/
def from_periodogram (penaltyFn : List ℝ → ℤ → List (List ℝ))
    (gradFn : List ℝ → List ℝ → List ℝ) (periodogram : Periodogram)
    (n_knots degree diffMatrixOrder : ℤ)
    (parametric_model : Option (List ℝ)) : Except String LogPSplines := do
  let knots ← init_knots_dyn (.int n_knots) (.pdgrm periodogram)
    (match parametric_model with
      | some a => PyVal.arr a
      | none => PyVal.pyNone)
    (.real 0.8)
  let basis := init_basis knots degree.toNat periodogram.n
  let penalty := penaltyFn knots diffMatrixOrder
  let model ← LogPSplines.make degree diffMatrixOrder periodogram.n basis
    penalty knots (List.replicate (basis.headD []).length 0)
    parametric_model
  let weights := init_weights gradFn (periodogram.power.map Real.log)
    model none 5000
  .ok { model with weights := weights }

/-- The 512-point end-to-end periodogram of the spec scenario:
frequencies linearly spaced from 1 to 50 Hz, flat unit power. -/
def e2ePdgrm : Periodogram :=
  ⟨linspace 1 50 512, List.replicate 512 1, false⟩

lemma maskFilter_self (xs : List ℝ) (pred : ℝ → Bool) :
    maskFilter (xs.map pred) xs = xs.filter pred := by
  induction xs with
  | nil => rfl
  | cons x xs ih =>
    by_cases h : pred x = true <;>
      simp [maskFilter, List.filter_cons, h] at ih ⊢ <;> exact ih

lemma zip_filter_fst (xs ys : List ℝ) (pred : ℝ → Bool)
    (h : ys.length = xs.length) :
    ((xs.zip ys).filter fun q => pred q.1).map (fun q => q.1)
      = xs.filter pred := by
  induction xs generalizing ys with
  | nil => rfl
  | cons x xs ih =>
    cases ys with
    | nil => simp at h
    | cons y ys =>
      simp only [List.length_cons, Nat.succ.injEq] at h
      by_cases hx : pred x = true <;>
        simp [List.zip_cons_cons, List.filter_cons, hx] at ih ⊢ <;>
        exact ih ys h

lemma maskFilter_zip (xs ys : List ℝ) (pred : ℝ → Bool)
    (h : ys.length = xs.length) :
    maskFilter (xs.map pred) ys
      = ((xs.zip ys).filter fun q => pred q.1).map fun q => q.2 := by
  induction xs generalizing ys with
  | nil =>
    cases ys with
    | nil => rfl
    | cons y ys => simp at h
  | cons x xs ih =>
    cases ys with
    | nil => simp at h
    | cons y ys =>
      simp only [List.length_cons, Nat.succ.injEq] at h
      by_cases hx : pred x = true <;>
        simp [maskFilter, List.zip_cons_cons, List.filter_cons, hx] at ih ⊢ <;>
        exact ih ys h

/-- C9: `highpass` returns a new `Periodogram` holding exactly the
frequency/power pairs whose frequency exceeds the threshold (with the
`filtered` flag set); the input periodogram is left unchanged — in this
pure embedding `highpass` constructs fresh arrays and writes nothing into
its argument, mirroring numpy mask-indexing which returns copies. -/
theorem highpass_filters_pairs (p : Periodogram) (f : ℝ)
    (hlen : p.power.length = p.freqs.length) :
    (p.highpass f).freqs
        = (((p.freqs.zip p.power).filter fun q => decide (f < q.1)).map
            fun q => q.1)
      ∧ (p.highpass f).power
        = (((p.freqs.zip p.power).filter fun q => decide (f < q.1)).map
            fun q => q.2)
      ∧ (p.highpass f).filtered = true := by
  refine ⟨?_, ?_, rfl⟩
  · show maskFilter (p.freqs.map fun x => decide (f < x)) p.freqs = _
    rw [maskFilter_self, ← zip_filter_fst p.freqs p.power _ hlen]
  · exact maskFilter_zip p.freqs p.power (fun x => decide (f < x)) hlen

/-- C5: for every periodogram and fraction pair, requesting fewer than two
knots makes `init_knots` raise the invalid-configuration `ValueError` and
return no knot array. -/
theorem init_knots_lt_two_errors (p : Periodogram) (n_knots : ℕ)
    (fu fl : ℝ) (h : n_knots < 2) :
    init_knots p n_knots fu fl
      = .error "At least two knots are required (min and max frequencies)." := by
  simp [init_knots, h]

/-- Witness for C5: `n_knots = 1` on a concrete periodogram. -/
theorem init_knots_lt_two_errors_witness :
    init_knots ⟨[1, 2], [1, 1], false⟩ 1 0 0.8
      = .error "At least two knots are required (min and max frequencies)." :=
  init_knots_lt_two_errors ⟨[1, 2], [1, 1], false⟩ 1 0 0.8 (by decide)

/-- C3 counterexample: on frequencies `[1, 2]` the two-knot short circuit
returns the raw frequencies `[1, 2]`, not the normalized `[0, 1]` the claim
asserts (the `n_knots == 2` branch skips the final rescaling step). -/
theorem init_knots_two_counterexample :
    init_knots ⟨[1, 2], [1, 1], false⟩ 2 0 0.8 = .ok [1, 2]
      ∧ ([1, 2] : List ℝ) ≠ [0, 1] := by
  constructor
  · simp [init_knots]
  · intro h
    have := List.head_eq_of_cons_eq h
    norm_num at this

/-- C3 (amended): for every periodogram and every fraction pair,
`init_knots` with `n_knots = 2` returns exactly the two-element array
`[freqs[0], freqs[-1]]` — the un-normalized minimum and maximum
frequencies — regardless of the fraction arguments. -/
theorem init_knots_two_returns_min_max (p : Periodogram) (fu fl : ℝ) :
    init_knots p 2 fu fl = .ok [p.freqs.headD 0, p.freqs.getLastD 0] := by
  simp [init_knots]

lemma length_linspace (a b : ℝ) (num : ℕ) : (linspace a b num).length = num := by
  rw [linspace, List.length_map, List.length_range]

lemma length_interior (xs : List ℝ) : (interior xs).length = xs.length - 2 := by
  simp only [interior, List.length_dropLast, List.length_drop]
  omega

lemma length_uniformKnots (mn mx : ℝ) (k : ℕ) :
    (uniformKnots mn mx k).length = k := by
  unfold uniformKnots
  split
  · rw [length_interior, length_linspace]
    omega
  · simp_all

lemma length_logKnots (mn mx : ℝ) (k : ℕ) : (logKnots mn mx k).length = k := by
  unfold logKnots
  split
  · rw [length_interior]
    simp only [logspace, List.length_map, length_linspace]
    omega
  · simp_all

lemma length_densityKnots (p : Periodogram) (k : ℕ) :
    (densityKnots p k).length = k := by
  unfold densityKnots
  split
  · rw [List.length_map, length_interior, length_linspace]
    omega
  · simp_all

lemma mem_interior {xs : List ℝ} {x : ℝ} (h : x ∈ interior xs) : x ∈ xs :=
  (List.drop_sublist 1 xs).subset ((List.dropLast_sublist _).subset h)

lemma mem_linspace_bounds {a b : ℝ} (hab : a ≤ b) {num : ℕ} {x : ℝ}
    (hx : x ∈ linspace a b num) : a ≤ x ∧ x ≤ b := by
  simp only [linspace, List.mem_map, List.mem_range] at hx
  obtain ⟨i, hi, rfl⟩ := hx
  by_cases h1 : num = 1
  · subst h1
    have hi0 : i = 0 := by omega
    subst hi0
    norm_num
    exact hab
  · have h2 : 2 ≤ num := by omega
    have hc : (0 : ℝ) < (num : ℝ) - 1 := by
      have : (2 : ℝ) ≤ (num : ℝ) := by exact_mod_cast h2
      linarith
    have hic : (i : ℝ) ≤ (num : ℝ) - 1 := by
      have : (i : ℝ) + 1 ≤ (num : ℝ) := by exact_mod_cast hi
      linarith
    have hi0 : (0 : ℝ) ≤ (i : ℝ) := Nat.cast_nonneg i
    have ht0 : 0 ≤ (i : ℝ) / ((num : ℝ) - 1) := div_nonneg hi0 hc.le
    have ht1 : (i : ℝ) / ((num : ℝ) - 1) ≤ 1 := (div_le_one hc).mpr hic
    have hrw : a + (b - a) * (i : ℝ) / ((num : ℝ) - 1)
        = a + (b - a) * ((i : ℝ) / ((num : ℝ) - 1)) := by ring
    rw [hrw]
    constructor <;> nlinarith [mul_nonneg (sub_nonneg.mpr hab) ht0,
      mul_le_mul_of_nonneg_left ht1 (sub_nonneg.mpr hab)]

lemma mem_logspace_bounds {s e : ℝ} (hse : s ≤ e) {num : ℕ} {x : ℝ}
    (hx : x ∈ logspace s e num) :
    (10 : ℝ) ^ s ≤ x ∧ x ≤ (10 : ℝ) ^ e := by
  simp only [logspace, List.mem_map] at hx
  obtain ⟨y, hy, rfl⟩ := hx
  obtain ⟨hy1, hy2⟩ := mem_linspace_bounds hse hy
  have h10 : (1 : ℝ) < 10 := by norm_num
  exact ⟨(Real.rpow_le_rpow_left_iff h10).mpr hy1,
    (Real.rpow_le_rpow_left_iff h10).mpr hy2⟩

lemma interpSegs_bounds {lo hi : ℝ} (segs : List (ℝ × ℝ)) (x : ℝ)
    (hne : segs ≠ [])
    (hq : ∀ q ∈ segs, lo ≤ q.2 ∧ q.2 ≤ hi) :
    lo ≤ interpSegs x segs ∧ interpSegs x segs ≤ hi := by
  induction segs with
  | nil => exact absurd rfl hne
  | cons q1 tail ih =>
    obtain ⟨x1, f1⟩ := q1
    cases tail with
    | nil => simpa [interpSegs] using hq (x1, f1) (by simp)
    | cons q2 rest =>
      obtain ⟨x2, f2⟩ := q2
      have h1 := hq (x1, f1) (by simp)
      have h2 := hq (x2, f2) (by simp)
      show lo ≤ interpSegs x ((x1, f1) :: (x2, f2) :: rest) ∧ _
      rw [interpSegs]
      split_ifs with hlt hle
      · exact h1
      · push_neg at hlt
        rcases eq_or_lt_of_le hlt with heq | hstrict
        · rw [← heq]
          simpa [sub_self] using h1
        · have hdpos : (0 : ℝ) < x2 - x1 := by linarith
          have hrw : f1 + (f2 - f1) * (x - x1) / (x2 - x1)
              = f1 + (f2 - f1) * ((x - x1) / (x2 - x1)) := by ring
          rw [hrw]
          have ht0 : 0 ≤ (x - x1) / (x2 - x1) :=
            div_nonneg (by linarith) hdpos.le
          have ht1 : (x - x1) / (x2 - x1) ≤ 1 :=
            (div_le_one hdpos).mpr (by linarith)
          constructor
          · nlinarith [mul_nonneg ht0 (sub_nonneg.mpr h2.1),
              mul_nonneg (sub_nonneg.mpr ht1) (sub_nonneg.mpr h1.1)]
          · nlinarith [mul_nonneg ht0 (sub_nonneg.mpr h2.2),
              mul_nonneg (sub_nonneg.mpr ht1) (sub_nonneg.mpr h1.2)]
      · exact ih (by simp) fun q hq' => hq q (List.mem_cons_of_mem _ hq')

lemma length_cumsum (xs : List ℝ) : (cumsum xs).length = xs.length := by
  simp [cumsum, List.length_scanl]

lemma sorted_headD_le (l : List ℝ) (d : ℝ) (hs : l.Sorted (· ≤ ·))
    (y : ℝ) (hy : y ∈ l) : l.headD d ≤ y := by
  cases l with
  | nil => simp at hy
  | cons x t =>
    rcases List.mem_cons.mp hy with rfl | hyt
    · simp
    · simpa using List.rel_of_sorted_cons hs y hyt

lemma sorted_le_getLastD : ∀ (l : List ℝ) (d : ℝ), l.Sorted (· ≤ ·) →
    ∀ y ∈ l, y ≤ l.getLastD d
  | [], _, _, y, hy => by simp at hy
  | [x], _, _, y, hy => by
    simp only [List.mem_singleton] at hy
    simp [hy]
  | x :: z :: t, d, hs, y, hy => by
    have htail := sorted_le_getLastD (z :: t) x hs.of_cons
    rw [List.getLastD_cons]
    rcases List.mem_cons.mp hy with hcase | hyt
    · rw [hcase]
      calc x ≤ z := List.rel_of_sorted_cons hs z (by simp)
        _ ≤ (z :: t).getLastD x := htail z (by simp)
    · exact htail y hyt

lemma headD_mem {l : List ℝ} (d : ℝ) (h : l ≠ []) : l.headD d ∈ l := by
  cases l with
  | nil => exact absurd rfl h
  | cons x t => simp

lemma getLastD_mem {l : List ℝ} (d : ℝ) (h : l ≠ []) : l.getLastD d ∈ l := by
  cases l with
  | nil => exact absurd rfl h
  | cons x t =>
    rw [List.getLastD_eq_getLast?, List.getLast?_eq_getLast _ (by simp),
      Option.getD_some]
    exact List.getLast_mem _

lemma mem_uniformKnots_bounds {mn mx : ℝ} (h : mn ≤ mx) {k : ℕ} {x : ℝ}
    (hx : x ∈ uniformKnots mn mx k) : mn ≤ x ∧ x ≤ mx := by
  unfold uniformKnots at hx
  split at hx
  · exact mem_linspace_bounds h (mem_interior hx)
  · simp at hx

lemma mem_logKnots_bounds {mn mx : ℝ} (hmn : 0 < mn) (h : mn ≤ mx)
    {k : ℕ} {x : ℝ} (hx : x ∈ logKnots mn mx k) : mn ≤ x ∧ x ≤ mx := by
  unfold logKnots at hx
  split at hx
  · have hse : Real.logb 10 mn ≤ Real.logb 10 mx :=
      Real.logb_le_logb_of_le (by norm_num) hmn h
    have hb := mem_logspace_bounds hse (mem_interior hx)
    rwa [Real.rpow_logb (by norm_num) (by norm_num) hmn,
      Real.rpow_logb (by norm_num) (by norm_num) (lt_of_lt_of_le hmn h)] at hb
  · simp at hx

lemma mem_densityKnots_bounds {p : Periodogram} {k : ℕ} {x : ℝ}
    (hfne : p.freqs ≠ []) (hpne : p.power ≠ [])
    (hs : p.freqs.Sorted (· ≤ ·)) (hx : x ∈ densityKnots p k) :
    p.freqs.headD 0 ≤ x ∧ x ≤ p.freqs.getLastD 0 := by
  unfold densityKnots at hx
  split at hx
  · obtain ⟨q, _, rfl⟩ := List.mem_map.mp hx
    apply interpSegs_bounds
    · have h1 : 0 < (cumsum (p.power.map fun w => w / p.power.sum)).length := by
        rw [length_cumsum, List.length_map]
        exact List.length_pos.mpr hpne
      have h2 : 0 < p.freqs.length := List.length_pos.mpr hfne
      intro hzip
      have := congrArg List.length hzip
      rw [List.length_zip] at this
      simp only [List.length_nil] at this
      omega
    · rintro ⟨s1, s2⟩ hs'
      have h2 : s2 ∈ p.freqs := (List.of_mem_zip hs').2
      exact ⟨sorted_headD_le _ 0 hs _ h2, sorted_le_getLastD _ 0 hs _ h2⟩
  · simp at hx

lemma clamp01_eq {x : ℝ} (h0 : 0 ≤ x) (h1 : x ≤ 1) : clamp01 x = x := by
  unfold clamp01
  rw [min_eq_left h1, max_eq_right h0]

lemma groupCount_eq {n : ℕ} {f : ℝ} (h0 : 0 ≤ f) :
    groupCount n f = ⌊f * ((n : ℝ) - 2)⌋₊ := by
  unfold groupCount
  rcases eq_or_lt_of_le h0 with heq | hlt
  · rw [if_neg (by rw [← heq]; exact lt_irrefl 0), ← heq, zero_mul,
      Nat.floor_zero]
  · rw [if_pos hlt]

lemma groupCount_sum_le {n : ℕ} (hn : 2 ≤ n) {fu fl : ℝ}
    (hfu0 : 0 ≤ fu) (hfl0 : 0 ≤ fl) (hsum : fu + fl ≤ 1) :
    groupCount n fu + groupCount n fl ≤ n - 2 := by
  rw [groupCount_eq hfu0, groupCount_eq hfl0]
  have hc : (0 : ℝ) ≤ (n : ℝ) - 2 := by
    have : (2 : ℝ) ≤ (n : ℝ) := by exact_mod_cast hn
    linarith
  have h1 : (⌊fu * ((n : ℝ) - 2)⌋₊ : ℝ) ≤ fu * ((n : ℝ) - 2) :=
    Nat.floor_le (mul_nonneg hfu0 hc)
  have h2 : (⌊fl * ((n : ℝ) - 2)⌋₊ : ℝ) ≤ fl * ((n : ℝ) - 2) :=
    Nat.floor_le (mul_nonneg hfl0 hc)
  have key : ((⌊fu * ((n : ℝ) - 2)⌋₊ + ⌊fl * ((n : ℝ) - 2)⌋₊ : ℕ) : ℝ)
      ≤ ((n - 2 : ℕ) : ℝ) := by
    rw [Nat.cast_add, Nat.cast_sub hn]
    push_cast
    nlinarith
  exact_mod_cast key

lemma clamp01_nonneg (x : ℝ) : 0 ≤ clamp01 x := le_max_left 0 _

lemma rawKnots_length {p : Periodogram} {n : ℕ} {fu fl : ℝ} (hn : 2 ≤ n)
    (hsum : clamp01 fu + clamp01 fl ≤ 1) :
    (rawKnots p n fu fl).length = n := by
  unfold rawKnots
  simp only [List.length_append, List.length_cons, List.length_nil,
    length_uniformKnots, length_logKnots, length_densityKnots]
  have := groupCount_sum_le hn (clamp01_nonneg fu) (clamp01_nonneg fl) hsum
  omega

lemma rawKnots_mem_bounds {p : Periodogram} {n : ℕ} {fu fl : ℝ}
    (hfne : p.freqs ≠ []) (hpne : p.power ≠ [])
    (hsle : p.freqs.Sorted (· ≤ ·)) (hpos : 0 < p.freqs.headD 0)
    (hmm : p.freqs.headD 0 ≤ p.freqs.getLastD 0) :
    ∀ x ∈ rawKnots p n fu fl,
      p.freqs.headD 0 ≤ x ∧ x ≤ p.freqs.getLastD 0 := by
  intro x hx
  unfold rawKnots at hx
  simp only [List.mem_append, List.mem_singleton] at hx
  rcases hx with (((hx | hx) | hx) | hx) | hx
  · rw [hx]; exact ⟨le_rfl, hmm⟩
  · exact mem_uniformKnots_bounds hmm hx
  · exact mem_logKnots_bounds hpos hmm hx
  · exact mem_densityKnots_bounds hfne hpne hsle hx
  · rw [hx]; exact ⟨hmm, le_rfl⟩

lemma headD_mem_rawKnots (p : Periodogram) (n : ℕ) (fu fl : ℝ) :
    p.freqs.headD 0 ∈ rawKnots p n fu fl := by
  unfold rawKnots
  simp

lemma getLastD_mem_rawKnots (p : Periodogram) (n : ℕ) (fu fl : ℝ) :
    p.freqs.getLastD 0 ∈ rawKnots p n fu fl := by
  unfold rawKnots
  simp

lemma sorted_lt_headD_getLastD {l : List ℝ} (hs : l.Sorted (· < ·))
    (h2 : 2 ≤ l.length) : l.headD 0 < l.getLastD 0 := by
  cases l with
  | nil => simp at h2
  | cons x t =>
    cases t with
    | nil => simp at h2
    | cons z t2 =>
      rw [List.headD_cons, List.getLastD_cons]
      exact List.rel_of_sorted_cons hs _ (getLastD_mem x (by simp))

/-- C4 counterexample: with `n_knots = 4` and both fractions equal to 1
(each individually in `[0,1]`, as the claim allows), the independent
clamping lets the group counts overshoot: `init_knots` returns 6 knots, not
the requested 4. -/
theorem init_knots_count_counterexample :
    (init_knots ⟨[1, 2], [1, 1], false⟩ 4 1 1).map List.length
        = Except.ok 6 ∧ (6 : ℕ) ≠ 4 := by
  refine ⟨?_, by decide⟩
  have hc : clamp01 (1 : ℝ) = 1 := clamp01_eq zero_le_one le_rfl
  have hg : groupCount 4 (1 : ℝ) = 2 := by
    unfold groupCount
    rw [if_pos one_pos]
    norm_num
  have hraw : (rawKnots ⟨[1, 2], [1, 1], false⟩ 4 1 1).length = 6 := by
    unfold rawKnots
    simp only [List.length_append, List.length_cons, List.length_nil,
      length_uniformKnots, length_logKnots, length_densityKnots, hc, hg]
  simp only [init_knots]
  rw [if_neg (by omega), if_neg (by omega), Except.map]
  simp only [List.length_map]
  rw [(List.perm_insertionSort _ _).length_eq, hraw]

/-- C4 (amended): for every periodogram with at least two strictly
increasing positive frequencies and positive total power, and every
`n_knots ≥ 3` with fraction arguments in `[0,1]` summing to at most 1,
`init_knots` returns an array with exactly `n_knots` entries that is
non-decreasing, has first entry 0.0 and last entry 1.0, so the count of
interior knots equals `n_knots - 2`. (The original claim also asserted
this for `n_knots = 2`, where normalization is skipped, and for fraction
pairs whose clamped values sum to more than 1, where the entry count
overshoots — see the counterexample.) -/
theorem init_knots_valid_properties (p : Periodogram) (n_knots : ℕ)
    (fu fl : ℝ)
    (hsort : p.freqs.Sorted (· < ·))
    (hpos : ∀ f ∈ p.freqs, 0 < f)
    (hlen2 : 2 ≤ p.freqs.length)
    (hpow : 0 < p.power.sum)
    (hn : 3 ≤ n_knots)
    (hsum : clamp01 fu + clamp01 fl ≤ 1) :
    ∃ l, init_knots p n_knots fu fl = .ok l
      ∧ l.length = n_knots
      ∧ l.Sorted (· ≤ ·)
      ∧ l.head? = some 0
      ∧ l.getLast? = some 1 := by
  have hfne : p.freqs ≠ [] := by
    intro h; rw [h] at hlen2; simp at hlen2
  have hpne : p.power ≠ [] := by
    intro h; rw [h] at hpow; simp at hpow
  have hsle : p.freqs.Sorted (· ≤ ·) := hsort.imp le_of_lt
  have hmn : 0 < p.freqs.headD 0 := hpos _ (headD_mem 0 hfne)
  have hmm : p.freqs.headD 0 < p.freqs.getLastD 0 :=
    sorted_lt_headD_getLastD hsort hlen2
  have hd : (0 : ℝ) < p.freqs.getLastD 0 - p.freqs.headD 0 := by linarith
  set mn := p.freqs.headD 0 with hmndef
  set mx := p.freqs.getLastD 0 with hmxdef
  set raw := rawKnots p n_knots fu fl with hrawdef
  set S := raw.insertionSort (· ≤ ·) with hSdef
  have hS_sorted : S.Sorted (· ≤ ·) := List.sorted_insertionSort _ raw
  have hS_perm : S.Perm raw := List.perm_insertionSort _ raw
  have hS_len : S.length = n_knots := by
    rw [hS_perm.length_eq]
    exact rawKnots_length (by omega) hsum
  have hS_bounds : ∀ x ∈ S, mn ≤ x ∧ x ≤ mx := fun x hx =>
    rawKnots_mem_bounds hfne hpne hsle hmn hmm.le x (hS_perm.mem_iff.mp hx)
  have hmn_mem : mn ∈ S :=
    hS_perm.mem_iff.mpr (headD_mem_rawKnots p n_knots fu fl)
  have hmx_mem : mx ∈ S :=
    hS_perm.mem_iff.mpr (getLastD_mem_rawKnots p n_knots fu fl)
  have hSne : S ≠ [] := List.ne_nil_of_mem hmn_mem
  have hhead : S.headD 0 = mn :=
    le_antisymm (sorted_headD_le S 0 hS_sorted mn hmn_mem)
      (hS_bounds _ (headD_mem 0 hSne)).1
  have hlast : S.getLastD 0 = mx :=
    le_antisymm (hS_bounds _ (getLastD_mem 0 hSne)).2
      (sorted_le_getLastD S 0 hS_sorted mx hmx_mem)
  have hlastget : S.getLast hSne = mx := by
    rw [List.getLastD_eq_getLast?, List.getLast?_eq_getLast _ hSne,
      Option.getD_some] at hlast
    exact hlast
  refine ⟨S.map (fun x => (x - mn) / (mx - mn)), ?_, ?_, ?_, ?_, ?_⟩
  · simp only [init_knots]
    rw [if_neg (by omega), if_neg (by omega)]
  · rw [List.length_map, hS_len]
  · exact List.Pairwise.map _
      (fun a b hab => (div_le_div_iff_of_pos_right hd).mpr (by linarith))
      hS_sorted
  · cases hSc : S with
    | nil => exact absurd hSc hSne
    | cons s0 t =>
      have hs0 : s0 = mn := by
        have := hhead
        rw [hSc] at this
        simpa using this
      simp only [List.map_cons, List.head?_cons, hs0, sub_self, zero_div]
  · have hmapne : S.map (fun x => (x - mn) / (mx - mn)) ≠ [] := by
      simp [hSne]
    rw [List.getLast?_eq_getLast _ hmapne, List.getLast_map, hlastget,
      div_self hd.ne']

/-- Witness for C4: the amended theorem applied at a concrete periodogram
with frequencies `[1, 2]`, unit power, `n_knots = 4`, both fractions 0
(all interior knots density-based). -/
theorem init_knots_valid_properties_witness :
    ∃ l, init_knots ⟨[1, 2], [1, 1], false⟩ 4 0 0 = .ok l
      ∧ l.length = 4 ∧ l.Sorted (· ≤ ·)
      ∧ l.head? = some 0 ∧ l.getLast? = some 1 :=
  init_knots_valid_properties ⟨[1, 2], [1, 1], false⟩ 4 0 0
    (by show ([1, 2] : List ℝ).Sorted (· < ·); norm_num [List.sorted_cons])
    (by show ∀ f ∈ ([1, 2] : List ℝ), 0 < f; norm_num)
    (by show 2 ≤ ([1, 2] : List ℝ).length; norm_num)
    (by show 0 < ([1, 1] : List ℝ).sum; norm_num)
    (by norm_num) (by norm_num [clamp01])

/-- Witness for C9 at a concrete periodogram and threshold. -/
theorem highpass_filters_pairs_witness :
    ((⟨[1, 3], [5, 6], false⟩ : Periodogram).highpass 2).freqs
        = ((([1, 3] : List ℝ).zip ([5, 6] : List ℝ)).filter
            (fun q => decide ((2 : ℝ) < q.1))).map (fun q => q.1)
      ∧ ((⟨[1, 3], [5, 6], false⟩ : Periodogram).highpass 2).power
        = ((([1, 3] : List ℝ).zip ([5, 6] : List ℝ)).filter
            (fun q => decide ((2 : ℝ) < q.1))).map (fun q => q.2)
      ∧ ((⟨[1, 3], [5, 6], false⟩ : Periodogram).highpass 2).filtered = true :=
  highpass_filters_pairs ⟨[1, 3], [5, 6], false⟩ 2 rfl

/-- C6: the basis matrix has `n_grid_points` rows of width
`n_knots + degree - 1`, and the entries of any column whose padded-knot
normalization window has zero span are exactly 0 — the `np.inf`
replacement turns the would-be division failure into zero entries, so no
entry is left undefined. -/
theorem init_basis_shape_and_zero_span (knots : List ℝ)
    (degree n_grid_points : ℕ) :
    (init_basis knots degree n_grid_points).length = n_grid_points
      ∧ (∀ row ∈ init_basis knots degree n_grid_points,
          row.length = knots.length + degree - 1)
      ∧ ∀ row ∈ init_basis knots degree n_grid_points,
          ∀ j, j < knots.length + degree - 1 →
            normFactor knots degree j = 0 → row.getD j 1 = 0 := by
  refine ⟨?_, ?_, ?_⟩
  · rw [init_basis, List.length_map, length_linspace]
  · intro row hrow
    obtain ⟨x, _, rfl⟩ := List.mem_map.mp hrow
    rw [List.length_map, List.length_range]
  · intro row hrow j hj h0
    obtain ⟨x, _, rfl⟩ := List.mem_map.mp hrow
    rw [List.getD_eq_getElem?_getD, List.getElem?_map, List.getElem?_range hj]
    simp [h0]

lemma mem_matrixEntries {nb : ℕ} (p : Matrix (Fin nb) (Fin nb) ℝ)
    (i j : Fin nb) : p i j ∈ matrixEntries p := by
  unfold matrixEntries
  rw [List.mem_flatten]
  exact ⟨(List.finRange nb).map fun j2 => p i j2,
    List.mem_map.mpr ⟨i, List.mem_finRange i, rfl⟩,
    List.mem_map.mpr ⟨j, List.mem_finRange j, rfl⟩⟩

lemma le_npMax {nb : ℕ} (p : Matrix (Fin nb) (Fin nb) ℝ) (i j : Fin nb) :
    p i j ≤ npMax p := by
  unfold npMax
  have hmem := mem_matrixEntries p i j
  obtain ⟨a, ha⟩ := Option.isSome_iff_exists.mp (List.isSome_max?_of_mem hmem)
  rw [ha, Option.getD_some]
  exact (List.max?_le_iff (fun a b c => max_le_iff) ha).mp le_rfl _ hmem

lemma npMax_mem {nb : ℕ} (p : Matrix (Fin nb) (Fin nb) ℝ) (h : 0 < nb) :
    npMax p ∈ matrixEntries p := by
  have i : Fin nb := ⟨0, h⟩
  have hmem := mem_matrixEntries p i i
  obtain ⟨a, ha⟩ := Option.isSome_iff_exists.mp (List.isSome_max?_of_mem hmem)
  unfold npMax
  rw [ha, Option.getD_some]
  exact List.max?_mem (fun a b => max_choice a b) ha

lemma matrixEntries_map {nb : ℕ} (p : Matrix (Fin nb) (Fin nb) ℝ)
    (f : ℝ → ℝ) :
    matrixEntries (Matrix.of fun i j => f (p i j))
      = (matrixEntries p).map f := by
  unfold matrixEntries
  rw [List.map_flatten, List.map_map]
  refine congrArg List.flatten ?_
  rw [List.map_inj_left]
  intro i _
  simp [Function.comp, List.map_map, Matrix.of_apply]

lemma npMax_scaled {nb : ℕ} (p : Matrix (Fin nb) (Fin nb) ℝ)
    (hM : 0 < npMax p) :
    npMax (Matrix.of fun i j => p i j / npMax p) = 1 := by
  have hnb : 0 < nb := by
    by_contra hc
    have hz : nb = 0 := by omega
    subst hz
    have : matrixEntries p = [] := by
      unfold matrixEntries
      simp [List.finRange_zero]
    rw [npMax, this] at hM
    simp at hM
  have hmax1 : (matrixEntries (Matrix.of fun i j => p i j / npMax p)).max?
      = some 1 := by
    rw [matrixEntries_map p fun e => e / npMax p]
    haveI : Std.Antisymm ((· : ℝ) ≤ ·) := ⟨fun h1 h2 => le_antisymm h1 h2⟩
    refine (List.max?_eq_some_iff (fun a => le_refl a)
      (fun a b => max_choice a b) (fun a b c => max_le_iff)).mpr ⟨?_, ?_⟩
    · refine List.mem_map.mpr ⟨npMax p, npMax_mem p hnb, ?_⟩
      exact div_self hM.ne'
    · rintro b hb
      obtain ⟨e, he, rfl⟩ := List.mem_map.mp hb
      obtain ⟨li, hli, hei⟩ := List.mem_flatten.mp he
      obtain ⟨i, _, rfl⟩ := List.mem_map.mp hli
      obtain ⟨j, _, rfl⟩ := List.mem_map.mp hei
      exact (div_le_one hM).mpr (le_npMax p i j)
  rw [npMax, hmax1, Option.getD_some]

lemma penaltyGram_posSemidef {nb m : ℕ} (v : Fin nb → Fin m → ℝ) :
    (penaltyGram v).PosSemidef := by
  have h := Matrix.posSemidef_self_mul_conjTranspose (Matrix.of v)
  have heq : penaltyGram v
      = Matrix.of v * Matrix.conjTranspose (Matrix.of v) := by
    ext i j
    simp [penaltyGram, Matrix.mul_apply, Matrix.conjTranspose_apply]
  rw [heq]
  exact h

lemma posSemidef_smul_of_nonneg {nb : ℕ} {A : Matrix (Fin nb) (Fin nb) ℝ}
    (hA : A.PosSemidef) {c : ℝ} (hc : 0 ≤ c) : (c • A).PosSemidef := by
  constructor
  · apply Matrix.IsHermitian.ext
    intro i j
    have := hA.isHermitian.apply i j
    simp only [Matrix.smul_apply, star_trivial, smul_eq_mul] at this ⊢
    rw [← this]
  · intro x
    rw [Matrix.smul_mulVec_assoc, Matrix.dotProduct_smul, smul_eq_mul]
    exact mul_nonneg hc (hA.2 x)

lemma posDef_eps_eye {nb : ℕ} {eps : ℝ} (h : 0 < eps) :
    (Matrix.of fun i j : Fin nb => if i = j then eps else 0).PosDef := by
  have heq : (Matrix.of fun i j : Fin nb => if i = j then eps else 0)
      = Matrix.diagonal fun _ => eps := by
    ext i j
    simp [Matrix.diagonal_apply]
  rw [heq]
  exact Matrix.PosDef.diagonal fun _ => h

/-- C7: for every modelled derivative discretization `v` that is not
identically zero and every `epsilon > 0` (the source default is `1e-6`),
the penalty matrix built by `init_basis_and_penalty` is square of size
`n_knots + degree - 1` (encoded in its index type), symmetric, its maximum
entry before the diagonal stabilizer is added equals 1, and after adding
`epsilon` times the identity it is positive-definite (positive
definiteness is exactly positivity of all eigenvalues of the symmetric
matrix). -/
theorem init_penalty_properties {nb m : ℕ} (v : Fin nb → Fin m → ℝ)
    {epsilon : ℝ} (heps : 0 < epsilon) (hv : ∃ i k, v i k ≠ 0) :
    ((init_penalty v epsilon).IsSymm
      ∧ npMax (Matrix.of fun i j =>
          penaltyGram v i j / npMax (penaltyGram v)) = 1
      ∧ (init_penalty v epsilon).PosDef) := by
  obtain ⟨i0, k0, hv0⟩ := hv
  have hdiag : 0 < penaltyGram v i0 i0 := by
    have hterm : 0 < v i0 k0 * v i0 k0 := mul_self_pos.mpr hv0
    have hle : v i0 k0 * v i0 k0 ≤ ∑ k, v i0 k * v i0 k :=
      Finset.single_le_sum (fun k _ => mul_self_nonneg (v i0 k))
        (Finset.mem_univ k0)
    exact lt_of_lt_of_le hterm hle
  have hM : 0 < npMax (penaltyGram v) :=
    lt_of_lt_of_le hdiag (le_npMax _ i0 i0)
  refine ⟨?_, npMax_scaled _ hM, ?_⟩
  · show Matrix.transpose (init_penalty v epsilon) = init_penalty v epsilon
    ext i j
    simp only [Matrix.transpose_apply, init_penalty, stabilizedPenalty,
      Matrix.of_apply, penaltyGram]
    have hsum : ∑ k, v j k * v i k = ∑ k, v i k * v j k :=
      Finset.sum_congr rfl fun k _ => mul_comm _ _
    rw [hsum]
    congr 1
    exact if_congr eq_comm rfl rfl
  · have hSeq : init_penalty v epsilon
        = (npMax (penaltyGram v))⁻¹ • penaltyGram v
          + Matrix.of (fun i j : Fin nb => if i = j then epsilon else 0) := by
      ext i j
      simp [init_penalty, stabilizedPenalty, Matrix.add_apply,
        Matrix.smul_apply, smul_eq_mul, div_eq_inv_mul]
    rw [hSeq]
    exact Matrix.PosDef.posSemidef_add
      (posSemidef_smul_of_nonneg (penaltyGram_posSemidef v)
        (inv_nonneg.mpr hM.le))
      (posDef_eps_eye heps)

/-- Witness for C7 at a concrete one-function discretization and the
source default `epsilon = 1e-6`. -/
theorem init_penalty_properties_witness :
    ((init_penalty (fun (_ : Fin 1) (_ : Fin 1) => (1 : ℝ))
        (1 / 1000000)).IsSymm
      ∧ npMax (Matrix.of fun i j =>
          penaltyGram (fun (_ : Fin 1) (_ : Fin 1) => (1 : ℝ)) i j
            / npMax (penaltyGram (fun (_ : Fin 1) (_ : Fin 1) => (1 : ℝ)))) = 1
      ∧ (init_penalty (fun (_ : Fin 1) (_ : Fin 1) => (1 : ℝ))
          (1 / 1000000)).PosDef) :=
  init_penalty_properties (fun _ _ => 1) (by norm_num)
    ⟨0, 0, by norm_num⟩

/-- C10: for a model whose `parametric_model` is `None` (cache not yet
created), the first `log_parametric_model` access mutates the model — the
stored `parametric_model` becomes the all-ones vector of length `n`, and
the zero vector of length `n` (`log 1 = 0`) is cached and returned — so
the read-only-looking accessor does not leave the model unchanged; every
subsequent access returns the same cached vector with no further state
change. -/
theorem log_parametric_model_lazy_mutation (m : LogPSplines)
    (hpm : m.parametric_model = none)
    (hcache : m.log_parametric_model_cache = none) :
    (log_parametric_model m).1 = List.replicate m.n 0
      ∧ (log_parametric_model m).2.parametric_model
          = some (List.replicate m.n 1)
      ∧ (log_parametric_model m).2.log_parametric_model_cache
          = some (List.replicate m.n 0)
      ∧ (log_parametric_model m).2 ≠ m
      ∧ log_parametric_model (log_parametric_model m).2
          = (List.replicate m.n 0, (log_parametric_model m).2) := by
  have hlog : (List.replicate m.n (1 : ℝ)).map Real.log
      = List.replicate m.n 0 := by
    rw [List.map_replicate, Real.log_one]
  unfold log_parametric_model
  rw [hcache, hpm]
  simp only [hlog]
  refine ⟨trivial, trivial, trivial, ?_, trivial⟩
  intro hEq
  have := congrArg LogPSplines.parametric_model hEq
  simp only [hpm] at this
  exact Option.some_ne_none _ this

/-- Witness for C10 at a concrete model with `n = 2`. -/
theorem log_parametric_model_lazy_mutation_witness :
    (log_parametric_model ⟨3, 2, 2, [], [], [0, 1], [], none, none⟩).1
        = List.replicate 2 0
      ∧ (log_parametric_model
          ⟨3, 2, 2, [], [], [0, 1], [], none, none⟩).2.parametric_model
          = some (List.replicate 2 1)
      ∧ (log_parametric_model
          ⟨3, 2, 2, [], [], [0, 1], [], none,
            none⟩).2.log_parametric_model_cache
          = some (List.replicate 2 0)
      ∧ (log_parametric_model ⟨3, 2, 2, [], [], [0, 1], [], none, none⟩).2
          ≠ ⟨3, 2, 2, [], [], [0, 1], [], none, none⟩
      ∧ log_parametric_model
          (log_parametric_model
            ⟨3, 2, 2, [], [], [0, 1], [], none, none⟩).2
          = (List.replicate 2 0,
            (log_parametric_model
              ⟨3, 2, 2, [], [], [0, 1], [], none, none⟩).2) :=
  log_parametric_model_lazy_mutation
    ⟨3, 2, 2, [], [], [0, 1], [], none, none⟩ rfl rfl

/-- C8: `init_weights` is deterministic — two runs with identical gradient
function, log-power target, model, initial vector, and iteration count
return identical weight vectors (every stage of the loop is a pure,
seed-free computation) — and when no initial vector is supplied the run
starts from the zero vector, whose length is
`n_basis = n_knots + degree - 1`. -/
theorem init_weights_deterministic_and_zero_start
    (g1 g2 : List ℝ → List ℝ → List ℝ) (t1 t2 : List ℝ)
    (m1 m2 : LogPSplines) (w1 w2 : Option (List ℝ)) (k1 k2 : ℕ)
    (hg : g1 = g2) (ht : t1 = t2) (hm : m1 = m2) (hw : w1 = w2)
    (hk : k1 = k2) :
    init_weights g1 t1 m1 w1 k1 = init_weights g2 t2 m2 w2 k2
      ∧ init_weights g1 t1 m1 none k1
          = init_weights g1 t1 m1
              (some (List.replicate m1.n_basis.toNat 0)) k1
      ∧ ((1 : ℤ) ≤ m1.n_basis →
          ((List.replicate m1.n_basis.toNat (0 : ℝ)).length : ℤ)
            = (m1.knots.length : ℤ) + m1.degree - 1) := by
  subst hg ht hm hw hk
  refine ⟨rfl, rfl, ?_⟩
  intro h
  rw [List.length_replicate]
  unfold LogPSplines.n_basis at h ⊢
  omega

/-- Witness for C8 at a concrete gradient function, target, and model. -/
theorem init_weights_deterministic_witness :
    init_weights (fun _ w => w) [1] ⟨3, 2, 1, [], [], [0, 1], [], none, none⟩
          none 5000
        = init_weights (fun _ w => w) [1]
            ⟨3, 2, 1, [], [], [0, 1], [], none, none⟩ none 5000
      ∧ init_weights (fun _ w => w) [1]
            ⟨3, 2, 1, [], [], [0, 1], [], none, none⟩ none 5000
          = init_weights (fun _ w => w) [1]
              ⟨3, 2, 1, [], [], [0, 1], [], none, none⟩
              (some (List.replicate
                (⟨3, 2, 1, [], [], [0, 1], [], none,
                  none⟩ : LogPSplines).n_basis.toNat 0)) 5000
      ∧ ((1 : ℤ) ≤ (⟨3, 2, 1, [], [], [0, 1], [], none,
            none⟩ : LogPSplines).n_basis →
          ((List.replicate (⟨3, 2, 1, [], [], [0, 1], [], none,
              none⟩ : LogPSplines).n_basis.toNat (0 : ℝ)).length : ℤ)
            = (([0, 1] : List ℝ).length : ℤ) + 3 - 1) :=
  init_weights_deterministic_and_zero_start
    (fun _ w => w) (fun _ w => w) [1] [1]
    ⟨3, 2, 1, [], [], [0, 1], [], none, none⟩
    ⟨3, 2, 1, [], [], [0, 1], [], none, none⟩
    none none 5000 5000 rfl rfl rfl rfl rfl

/-- C1: `from_periodogram` on the end-to-end scenario input (`n_knots =
10`, `degree = 3`, `diffMatrixOrder = 2`) never executes the claimed
pipeline: the call into knot selection passes its arguments in the wrong
positional order, so the comparison `n_knots < 2` at the top of
`init_knots` compares a `Periodogram` with an `int` and raises
`TypeError`, whatever the penalty collaborator, gradient function, or
parametric model. -/
theorem from_periodogram_raises_typeerror
    (penaltyFn : List ℝ → ℤ → List (List ℝ))
    (gradFn : List ℝ → List ℝ → List ℝ) (pm : Option (List ℝ)) :
    from_periodogram penaltyFn gradFn e2ePdgrm 10 3 2 pm
      = .error "TypeError: unorderable types" := rfl

/-- C2 counterexample: passing the invalid `degree = 6` through the
`from_periodogram` construction path does not surface the
invalid-configuration message before numeric work: knot selection is
attempted first and raises `TypeError` (the argument-order defect), so the
surfaced error is not the configuration error "Degree must be between 0
and 5." that `__post_init__` would raise. -/
theorem construction_error_order_counterexample :
    from_periodogram (fun _ _ => []) (fun _ w => w)
        ⟨[1, 2], [1, 1], false⟩ 3 6 2 none
      = .error "TypeError: unorderable types"
      ∧ "TypeError: unorderable types" ≠ "Degree must be between 0 and 5." :=
  ⟨rfl, by decide⟩

/-- C2 (amended): the `__post_init__` validation itself is sound — for
every invalid configuration passed to the `LogPSplines` dataclass
constructor (degree outside {0..5}, diffMatrixOrder outside {0,1,2},
degree < diffMatrixOrder, or knot count < degree), construction fails with
an invalid-configuration error, and the constructor performs no knot
selection or basis/penalty construction (its numeric fields are
caller-supplied). However, on the `from_periodogram` path the claim fails:
knot selection and basis construction are attempted before the
constructor's validation runs (see the counterexample). -/
theorem make_invalid_config_errors (degree diffMatrixOrder : ℤ) (n : ℕ)
    (basis penalty : List (List ℝ)) (knots weights : List ℝ)
    (pm : Option (List ℝ))
    (h : degree ∉ ([0, 1, 2, 3, 4, 5] : List ℤ)
      ∨ diffMatrixOrder ∉ ([0, 1, 2] : List ℤ)
      ∨ degree < diffMatrixOrder
      ∨ (knots.length : ℤ) < degree) :
    (LogPSplines.make degree diffMatrixOrder n basis penalty knots weights
      pm).isOk = false := by
  unfold LogPSplines.make postInitCheck
  split_ifs with h1 h2 h3 h4 <;>
    first
      | rfl
      | (rcases h with h | h | h | h
         · exact absurd h2 h
         · exact absurd h3 h
         · exact absurd h h1
         · exact absurd h h4)

/-- Witness for C2: `degree = 6` is rejected by direct construction. -/
theorem make_invalid_config_errors_witness :
    (LogPSplines.make 6 2 4 [] [] [0, 1] [] none).isOk = false :=
  make_invalid_config_errors 6 2 4 [] [] [0, 1] [] none
    (Or.inl (by decide))

end LogPSplinePSD

